import Mathlib

/-!
Verification of the Wordle solver engine (stateless Python implementation).

The definitions below are a shallow embedding of the pure core of
`functions/main.py`:

* `filter_possible_words`       — the candidate filter (feedback constraints),
* `calculate_letter_frequency`  — per-letter percentage frequencies,
* `normalize_letter_frequencies`— linear rescale of frequencies to [0,10],
* `calculate_guess_score`       — heuristic word scoring,
* `recommend_guesses`           — top-N recommendation pipeline,
* `find_variable_letter_positions`, filler-word discovery, and the
  request-level orchestration of `calculate_next_move`.

Words are modelled as `List Char`, feedback symbols as the characters
'g'/'y'/'b' exactly as in the code, and Python floats as exact rationals
(`ℚ`).  Python's stable `list.sort(key=..., reverse=True)` is modelled by a
stable descending insertion sort on the score component.
-/

abbrev Word := List Char

/-- Number of 'g' (green) feedback entries for `letter` across the whole
feedback list; the value of `correct_letter_counts[letter]` built by the
first loop of `filter_possible_words` in `main.py`. -/
def correct_letter_counts (guess_feedback : List (Char × Char)) (letter : Char) : Nat :=
  guess_feedback.countP (fun p => decide (p.1 = letter ∧ p.2 = 'g'))

/-- Number of 'y' (yellow) feedback entries for `letter` across the whole
feedback list; the value of `present_letter_counts[letter]` in `main.py`. -/
def present_letter_counts (guess_feedback : List (Char × Char)) (letter : Char) : Nat :=
  guess_feedback.countP (fun p => decide (p.1 = letter ∧ p.2 = 'y'))

/-- One iteration of the position loop in `is_word_possible` (`main.py`,
lines 190-211): the word survives position `i` carrying `(letter, fb)`.
`word_letter_counts[letter]` is `w.count letter`.  A feedback character
outside 'g'/'y'/'b' takes none of the three branches, hence no constraint. -/
def feedback_ok (guess_feedback : List (Char × Char)) (w : Word) (i : Nat)
    (letter : Char) (fb : Char) : Bool :=
  if fb = 'g' then
    -- reject when word[i] != letter or count < correct_letter_counts[letter]
    decide (w.getD i ' ' = letter)
      && decide (correct_letter_counts guess_feedback letter ≤ w.count letter)
  else if fb = 'y' then
    -- reject when letter ∉ word, or word[i] == letter, or count <= correct count
    decide (letter ∈ w) && decide (w.getD i ' ' ≠ letter)
      && decide (correct_letter_counts guess_feedback letter < w.count letter)
  else if fb = 'b' then
    -- reject when letter ∈ word and count > correct count + present count
    !(decide (letter ∈ w)
      && decide (correct_letter_counts guess_feedback letter
          + present_letter_counts guess_feedback letter < w.count letter))
  else
    true

/-- `is_word_possible` from `main.py` (lines 184-211): the loop
`for i, (letter, feedback) in enumerate(guess_feedback)` with early
`return False` becomes a conjunction over all positions. -/
def is_word_possible (guess_feedback : List (Char × Char)) (w : Word) : Bool :=
  (List.range guess_feedback.length).all (fun i =>
    feedback_ok guess_feedback w i
      (guess_feedback.getD i (' ', ' ')).1 (guess_feedback.getD i (' ', ' ')).2)

/-- `filter_possible_words` from `main.py` (lines 154-213).  An empty
feedback list returns the word list unchanged (the `if not guess_feedback`
guard). -/
def filter_possible_words (word_list : List Word) (guess_feedback : List (Char × Char)) :
    List Word :=
  if guess_feedback.isEmpty then word_list
  else word_list.filter (fun w => is_word_possible guess_feedback w)

/-- Spec-side characterization of the candidate filter, written from the
claim: a word is retained iff for every feedback position `i` with letter `L`
and symbol `s`, the Correct/Present/Absent condition holds, where the
correct/present counts are taken across the whole feedback sequence. -/
def spec_retains (guess_feedback : List (Char × Char)) (w : Word) : Prop :=
  ∀ i (hi : i < guess_feedback.length),
    ((guess_feedback.get ⟨i, hi⟩).2 = 'g' →
      w.getD i ' ' = (guess_feedback.get ⟨i, hi⟩).1 ∧
      correct_letter_counts guess_feedback (guess_feedback.get ⟨i, hi⟩).1 ≤
        w.count (guess_feedback.get ⟨i, hi⟩).1) ∧
    ((guess_feedback.get ⟨i, hi⟩).2 = 'y' →
      (guess_feedback.get ⟨i, hi⟩).1 ∈ w ∧
      w.getD i ' ' ≠ (guess_feedback.get ⟨i, hi⟩).1 ∧
      correct_letter_counts guess_feedback (guess_feedback.get ⟨i, hi⟩).1 <
        w.count (guess_feedback.get ⟨i, hi⟩).1) ∧
    ((guess_feedback.get ⟨i, hi⟩).2 = 'b' →
      (guess_feedback.get ⟨i, hi⟩).1 ∈ w →
      w.count (guess_feedback.get ⟨i, hi⟩).1 ≤
        correct_letter_counts guess_feedback (guess_feedback.get ⟨i, hi⟩).1 +
          present_letter_counts guess_feedback (guess_feedback.get ⟨i, hi⟩).1)

/-- Stable insertion of a scored item into a descending-sorted list: `x` is
placed before the first element whose score is ≤ its own, so elements with
equal scores keep their original relative order.  Together with `sort_desc`
this models Python's stable `list.sort(key=lambda x: x[1], reverse=True)`. -/
def insert_desc {α β : Type} [LinearOrder β] (x : α × β) :
    List (α × β) → List (α × β)
  | [] => [x]
  | y :: ys => if y.2 ≤ x.2 then x :: y :: ys else y :: insert_desc x ys

/-- Stable descending insertion sort on the score component. -/
def sort_desc {α β : Type} [LinearOrder β] : List (α × β) → List (α × β)
  | [] => []
  | x :: xs => insert_desc x (sort_desc xs)

/-- The length/prefix filter shared by `calculate_letter_frequency`,
`recommend_guesses` and the initial pool of `calculate_next_move`:
`len(word) == length and (prefix is None or word.startswith(prefix))`. -/
def length_prefix_ok (len : Nat) (pre : Option Word) (w : Word) : Bool :=
  decide (w.length = len) &&
    (match pre with
      | none => true
      | some p => p.isPrefixOf w)

/-- The letters tallied by `calculate_letter_frequency`: the length/prefix
filtered words, with the prefix stripped from each, concatenated
(`all_letters = "".join(filtered_words)` in `main.py`). -/
def stripped_letters (word_list : List Word) (len : Nat) (pre : Option Word) :
    List Char :=
  (match pre with
    | none => word_list.filter (length_prefix_ok len pre)
    | some p =>
      (word_list.filter (length_prefix_ok len pre)).map
        (fun w : Word => w.drop p.length)).flatten

/-- `calculate_letter_frequency` from `main.py` (lines 60-104), with Python
floats replaced by exact rationals.  The final table is sorted by value in
descending order, as in the code. -/
def calculate_letter_frequency (word_list : List Word) (len : Nat) (pre : Option Word) :
    List (Char × ℚ) :=
  let filtered_words := word_list.filter (length_prefix_ok len pre)
  if filtered_words.isEmpty then []
  else
    let all_letters := stripped_letters word_list len pre
    let total_letters := (all_letters.dedup.map (fun c => all_letters.count c)).sum
    if total_letters = 0 then []
    else
      sort_desc (all_letters.dedup.map
        (fun c => (c, ((all_letters.count c : ℚ) / (total_letters : ℚ)) * 100)))

/-- `normalize_letter_frequencies` from `main.py` (lines 107-129): linear
rescale by min/max to the [0,10] range; all-equal tables map to 5. -/
def normalize_letter_frequencies : List (Char × ℚ) → List (Char × ℚ)
  | [] => []
  | f :: fs =>
    let vals := (f :: fs).map (fun p => p.2)
    let max_freq := vals.foldl max f.2
    let min_freq := vals.foldl min f.2
    if max_freq = min_freq then (f :: fs).map (fun p => (p.1, (5 : ℚ)))
    else (f :: fs).map (fun p => (p.1, (p.2 - min_freq) / (max_freq - min_freq) * 10))

/-- Python's `letter_scores.get(letter, 0)`: association-list lookup with
default 0. -/
def get_score (letter_scores : List (Char × ℚ)) (c : Char) : ℚ :=
  (List.lookup c letter_scores).getD 0

/-- `calculate_guess_score` from `main.py` (lines 132-151): sum over all
letter occurrences after the second guess, over distinct letters before. -/
def calculate_guess_score (word : Word) (letter_scores : List (Char × ℚ))
    (guess_count : Nat) : ℚ :=
  if 2 < guess_count then (word.map (fun c => get_score letter_scores c)).sum
  else (word.dedup.map (fun c => get_score letter_scores c)).sum

/-- `recommend_guesses` from `main.py` (lines 216-259). -/
def recommend_guesses (word_list : List Word) (len : Nat) (pre : Option Word)
    (n : Nat) (guess_count : Nat) (score_base_word_list : Option (List Word)) :
    List (Word × ℚ) :=
  let filtered_words := word_list.filter (length_prefix_ok len pre)
  if filtered_words.isEmpty then []
  else
    let base := score_base_word_list.getD word_list
    let frequencies := calculate_letter_frequency base len pre
    let letter_scores := normalize_letter_frequencies frequencies
    let scored_words := filtered_words.map
      (fun w => (w, calculate_guess_score w letter_scores guess_count))
    (sort_desc scored_words).take n

/-- `find_variable_letter_positions` from `main.py` (lines 262-285): for each
index of the first word, the distinct letters observed there across all
words; positions with a single letter are dropped.  (Python collects the
letters in a set; the order inside each letter list is irrelevant to every
property below.) -/
def find_variable_letter_positions (word_list : List Word) : List (Nat × List Char) :=
  match word_list with
  | [] => []
  | w :: ws =>
    ((List.range w.length).map
        (fun i => (i, ((w :: ws).filterMap (fun u => u.get? i)).dedup))).filter
      (fun p => decide (1 < p.2.length))

/-- Score of a filler word: the number of distinct variable letters it
contains (`sum(1 for letter in set(variable_letters) if letter in word)`,
`main.py` line 398). -/
def filler_score (variable_letters : List Char) (w : Word) : Nat :=
  (variable_letters.dedup.filter (fun l => decide (l ∈ w))).length

/-- The filler-word block of `calculate_next_move` (`main.py` lines 389-402):
length-filtered dictionary words containing at least one variable letter,
stable-sorted by `filler_score` descending, truncated to 9. -/
def find_filler_words (dictionary : List Word) (variable_letters : List Char)
    (word_length : Nat) : List Word :=
  let filler_candidates := dictionary.filter
    (fun w => decide (w.length = word_length) &&
      variable_letters.any (fun l => decide (l ∈ w)))
  let scored_fillers := filler_candidates.map
    (fun w => (w, filler_score variable_letters w))
  ((sort_desc scored_fillers).take 9).map (fun p => p.1)

/-- Python's `round(x, 2)` (round half to even), on exact rationals. -/
def round2 (q : ℚ) : ℚ :=
  let m := q * 100
  let f := ⌊m⌋
  let r := m - (f : ℚ)
  let n := if r < 1/2 then f else if 1/2 < r then f + 1 else if f % 2 = 0 then f else f + 1
  (n : ℚ) / 100

/-- One entry of the request history: a guessed word and its feedback
string. -/
structure HistoryEntry where
  guess : Word
  feedback : Word

/-- The distinct `ValueError` conditions raised by `calculate_next_move`
(its dictionary-loading collaborator is external and not modelled). -/
inductive RequestError where
  | invalidWordLength
  | lengthMismatch
  | invalidFeedbackChars
deriving DecidableEq

/-- The response record of `calculate_next_move` (variable-position keys kept
as numbers rather than decimal strings). -/
structure NextMoveResponse where
  recommendations : List (Word × ℚ)
  remainingWords : List Word
  remainingCount : Nat
  variablePositions : List (Nat × List Char)
  fillerSuggestions : List Word
  guessCount : Nat
deriving DecidableEq

/-- The history loop of `calculate_next_move` (`main.py` lines 350-365):
each entry is lower-cased, validated (guess/feedback length, feedback
characters), and then applied through `filter_possible_words`. -/
def apply_history (word_length : Nat) :
    List Word → List HistoryEntry → Except RequestError (List Word)
  | possible_words, [] => Except.ok possible_words
  | possible_words, entry :: rest =>
    let guess := entry.guess.map Char.toLower
    let feedback := entry.feedback.map Char.toLower
    if guess.length ≠ word_length ∨ feedback.length ≠ word_length then
      Except.error RequestError.lengthMismatch
    else if feedback.all (fun c => decide (c = 'g' ∨ c = 'y' ∨ c = 'b')) then
      apply_history word_length
        (filter_possible_words possible_words (guess.zip feedback)) rest
    else
      Except.error RequestError.invalidFeedbackChars

/-- The pure core of the `calculate_next_move` handler (`main.py` lines
315-419): the dictionary is passed in (loading is external), the initial
pool is length/prefix-filtered, history is replayed, and recommendations,
variable positions and filler suggestions are assembled. -/
def calculate_next_move (dictionary : List Word) (word_length : Nat)
    (pre : Option Word) (history : List HistoryEntry) :
    Except RequestError NextMoveResponse :=
  if word_length < 1 then Except.error RequestError.invalidWordLength
  else
    let possible0 := dictionary.filter (length_prefix_ok word_length pre)
    let guess_count := history.length + 1
    match apply_history word_length possible0 history with
    | Except.error e => Except.error e
    | Except.ok possible_words =>
      let recommendations :=
        recommend_guesses possible_words word_length pre 9 guess_count (some dictionary)
      let variable_positions := find_variable_letter_positions possible_words
      let variable_letters := ((variable_positions.map (fun p => p.2)).flatten).dedup
      let filler_suggestions :=
        if ¬ variable_letters.isEmpty ∧ 10 < possible_words.length then
          find_filler_words dictionary variable_letters word_length
        else []
      Except.ok {
        recommendations := recommendations.map (fun p => (p.1, round2 p.2)),
        remainingWords := possible_words.take 100,
        remainingCount := possible_words.length,
        variablePositions := variable_positions,
        fillerSuggestions := filler_suggestions,
        guessCount := guess_count }

/-- A history entry accepted by the validation `calculate_next_move`
performs before filtering: the lower-cased guess and feedback both have the
configured word length and every feedback character is 'g', 'y' or 'b'. -/
def entry_valid (word_length : Nat) (e : HistoryEntry) : Prop :=
  e.guess.length = word_length ∧ e.feedback.length = word_length ∧
    (e.feedback.map Char.toLower).all
      (fun c => decide (c = 'g' ∨ c = 'y' ∨ c = 'b')) = true

/-- C4: the output of the candidate filter is a sublist of its input (it
preserves relative order), so its length never exceeds the input's. -/
theorem filter_possible_words_sublist (word_list : List Word)
    (guess_feedback : List (Char × Char)) :
    List.Sublist (filter_possible_words word_list guess_feedback) word_list ∧
      (filter_possible_words word_list guess_feedback).length ≤ word_list.length := by
  have hsub : List.Sublist (filter_possible_words word_list guess_feedback) word_list := by
    unfold filter_possible_words
    by_cases h : guess_feedback.isEmpty
    · simp [h]
    · simp only [h, if_false]
      exact List.filter_sublist word_list
  exact ⟨hsub, hsub.length_le⟩

/-- C2 (counterexample): on the pool `["crane","slate","place","grape"]` with
the feedback obtained from guess `"crane"` and result `"bbgbg"`, the filter
does not return `["slate","place"]` — the word `"place"` contains the letter
'c' which the feedback marks absent, so it is rejected. -/
theorem filter_crane_scenario_not_spec :
    filter_possible_words
        [['c','r','a','n','e'], ['s','l','a','t','e'], ['p','l','a','c','e'],
          ['g','r','a','p','e']]
        [('c','b'), ('r','b'), ('a','g'), ('n','b'), ('e','g')] ≠
      [['s','l','a','t','e'], ['p','l','a','c','e']] := by
  decide

/-- C2 (amended): on the same pool and feedback the filter returns exactly
`["slate"]`; `"place"` is excluded because it contains the absent letter
'c', and `"grape"` because it contains the absent letter 'r' (its 'a' and
'e' do sit at the correct indices 2 and 4). -/
theorem filter_crane_scenario_eq :
    filter_possible_words
        [['c','r','a','n','e'], ['s','l','a','t','e'], ['p','l','a','c','e'],
          ['g','r','a','p','e']]
        [('c','b'), ('r','b'), ('a','g'), ('n','b'), ('e','g')] =
      [['s','l','a','t','e']] := by
  decide

/-- Per-position equivalence between the boolean check of the code and the
propositional conditions of the specification, for a valid symbol. -/
theorem feedback_ok_eq_true_iff (guess_feedback : List (Char × Char)) (w : Word)
    (i : Nat) (hi : i < guess_feedback.length)
    (hs : (guess_feedback.get ⟨i, hi⟩).2 = 'g' ∨ (guess_feedback.get ⟨i, hi⟩).2 = 'y' ∨
      (guess_feedback.get ⟨i, hi⟩).2 = 'b') :
    (feedback_ok guess_feedback w i (guess_feedback.get ⟨i, hi⟩).1
        (guess_feedback.get ⟨i, hi⟩).2 = true) ↔
      (((guess_feedback.get ⟨i, hi⟩).2 = 'g' →
        w.getD i ' ' = (guess_feedback.get ⟨i, hi⟩).1 ∧
        correct_letter_counts guess_feedback (guess_feedback.get ⟨i, hi⟩).1 ≤
          w.count (guess_feedback.get ⟨i, hi⟩).1) ∧
      ((guess_feedback.get ⟨i, hi⟩).2 = 'y' →
        (guess_feedback.get ⟨i, hi⟩).1 ∈ w ∧
        w.getD i ' ' ≠ (guess_feedback.get ⟨i, hi⟩).1 ∧
        correct_letter_counts guess_feedback (guess_feedback.get ⟨i, hi⟩).1 <
          w.count (guess_feedback.get ⟨i, hi⟩).1) ∧
      ((guess_feedback.get ⟨i, hi⟩).2 = 'b' →
        (guess_feedback.get ⟨i, hi⟩).1 ∈ w →
        w.count (guess_feedback.get ⟨i, hi⟩).1 ≤
          correct_letter_counts guess_feedback (guess_feedback.get ⟨i, hi⟩).1 +
            present_letter_counts guess_feedback (guess_feedback.get ⟨i, hi⟩).1)) := by
  rcases hs with hg | hy | hb
  · rw [hg]
    simp [feedback_ok]
  · rw [hy]
    simp [feedback_ok]
    tauto
  · rw [hb]
    simp [feedback_ok]
    tauto

/-- The boolean word check of the code agrees with the specification's
retention predicate whenever every symbol is one of 'g'/'y'/'b'. -/
theorem is_word_possible_eq_true_iff (guess_feedback : List (Char × Char)) (w : Word)
    (hsym : ∀ p ∈ guess_feedback, p.2 = 'g' ∨ p.2 = 'y' ∨ p.2 = 'b') :
    (is_word_possible guess_feedback w = true) ↔ spec_retains guess_feedback w := by
  unfold is_word_possible spec_retains
  rw [List.all_eq_true]
  constructor
  · intro h i hi
    have hx := h i (List.mem_range.mpr hi)
    rw [List.getD_eq_get _ _ hi] at hx
    exact (feedback_ok_eq_true_iff guess_feedback w i hi
      (hsym _ (guess_feedback.get_mem i hi))).mp hx
  · intro h i himem
    have hi := List.mem_range.mp himem
    rw [List.getD_eq_get _ _ hi]
    exact (feedback_ok_eq_true_iff guess_feedback w i hi
      (hsym _ (guess_feedback.get_mem i hi))).mpr (h i hi)

/-- C1: for feedback whose symbols lie in {'g','y','b'} and whose length
equals the word's length, the candidate filter retains a word iff it was in
the input list and satisfies the Correct/Present/Absent conditions of the
specification at every feedback position. -/
theorem filter_possible_words_retains_iff (word_list : List Word)
    (guess_feedback : List (Char × Char)) (w : Word)
    (hsym : ∀ p ∈ guess_feedback, p.2 = 'g' ∨ p.2 = 'y' ∨ p.2 = 'b')
    (hlen : w.length = guess_feedback.length) :
    w ∈ filter_possible_words word_list guess_feedback ↔
      w ∈ word_list ∧ spec_retains guess_feedback w := by
  unfold filter_possible_words
  by_cases hfb : guess_feedback.isEmpty
  · have hnil : guess_feedback = [] := List.isEmpty_iff.mp hfb
    subst hnil
    simp [spec_retains]
  · simp only [hfb, Bool.false_eq_true, if_false, List.mem_filter]
    exact and_congr_right fun _ => is_word_possible_eq_true_iff guess_feedback w hsym

/-- C1 witness: the characterization instantiated on the concrete "crane"
scenario for the word "slate". -/
theorem filter_possible_words_retains_iff_witness :
    (['s','l','a','t','e'] ∈ filter_possible_words [['s','l','a','t','e']]
        [('c','b'), ('r','b'), ('a','g'), ('n','b'), ('e','g')]) ↔
      (['s','l','a','t','e'] ∈ [(['s','l','a','t','e'] : Word)] ∧
        spec_retains [('c','b'), ('r','b'), ('a','g'), ('n','b'), ('e','g')]
          ['s','l','a','t','e']) :=
  filter_possible_words_retains_iff _ _ _ (by decide) (by decide)

theorem insert_desc_perm {α β : Type} [LinearOrder β] (x : α × β) (l : List (α × β)) :
    List.Perm (insert_desc x l) (x :: l) := by
  induction l with
  | nil => exact List.Perm.refl _
  | cons y ys ih =>
    unfold insert_desc
    by_cases h : y.2 ≤ x.2
    · rw [if_pos h]
    · rw [if_neg h]
      exact (ih.cons y).trans (List.Perm.swap x y ys)

theorem sort_desc_perm {α β : Type} [LinearOrder β] (l : List (α × β)) :
    List.Perm (sort_desc l) l := by
  induction l with
  | nil => exact List.Perm.refl _
  | cons x xs ih => exact (insert_desc_perm x (sort_desc xs)).trans (ih.cons x)

theorem insert_desc_pairwise {α β : Type} [LinearOrder β] (x : α × β) (l : List (α × β))
    (h : l.Pairwise (fun a b => b.2 ≤ a.2)) :
    (insert_desc x l).Pairwise (fun a b => b.2 ≤ a.2) := by
  induction l with
  | nil => simp [insert_desc]
  | cons y ys ih =>
    rcases List.pairwise_cons.mp h with ⟨hy, hys⟩
    unfold insert_desc
    by_cases hxy : y.2 ≤ x.2
    · rw [if_pos hxy]
      refine List.pairwise_cons.mpr ⟨?_, h⟩
      intro z hz
      rcases List.mem_cons.mp hz with rfl | hz'
      · exact hxy
      · exact le_trans (hy z hz') hxy
    · rw [if_neg hxy]
      refine List.pairwise_cons.mpr ⟨?_, ih hys⟩
      intro z hz
      rcases List.mem_cons.mp ((insert_desc_perm x ys).mem_iff.mp hz) with rfl | hz'
      · exact le_of_lt (lt_of_not_le hxy)
      · exact hy z hz'

theorem sort_desc_pairwise {α β : Type} [LinearOrder β] (l : List (α × β)) :
    (sort_desc l).Pairwise (fun a b => b.2 ≤ a.2) := by
  induction l with
  | nil => simp [sort_desc]
  | cons x xs ih => exact insert_desc_pairwise x (sort_desc xs) ih

theorem insert_desc_filter {α β : Type} [LinearOrder β] (x : α × β) (l : List (α × β))
    (s : β) :
    (insert_desc x l).filter (fun p => decide (p.2 = s)) =
      if x.2 = s then x :: l.filter (fun p => decide (p.2 = s))
      else l.filter (fun p => decide (p.2 = s)) := by
  induction l with
  | nil =>
    by_cases h : x.2 = s <;> simp [insert_desc, List.filter, h]
  | cons y ys ih =>
    unfold insert_desc
    by_cases hxy : y.2 ≤ x.2
    · rw [if_pos hxy]
      by_cases hx : x.2 = s <;> simp [List.filter_cons, hx]
    · rw [if_neg hxy]
      by_cases hy : y.2 = s
      · have hx : ¬ x.2 = s := fun hxx => hxy (le_of_eq (hy.trans hxx.symm))
        simp [List.filter_cons, hy, hx, ih]
      · simp [List.filter_cons, hy, ih]

/-- Stability of the sort: for any score value, the sorted list restricted to
that score is exactly the input restricted to that score, in order. -/
theorem sort_desc_filter {α β : Type} [LinearOrder β] (l : List (α × β)) (s : β) :
    (sort_desc l).filter (fun p => decide (p.2 = s)) =
      l.filter (fun p => decide (p.2 = s)) := by
  induction l with
  | nil => rfl
  | cons x xs ih =>
    show (insert_desc x (sort_desc xs)).filter _ = _
    rw [insert_desc_filter]
    by_cases hx : x.2 = s
    · rw [if_pos hx, ih, List.filter_cons_of_pos (by simp [hx])]
    · rw [if_neg hx, ih, List.filter_cons_of_neg (by simp [hx])]

theorem sort_desc_take_filter {α β : Type} [LinearOrder β] (l : List (α × β))
    (n : Nat) (s : β) :
    ((sort_desc l).take n).filter (fun p => decide (p.2 = s)) <+:
      l.filter (fun p => decide (p.2 = s)) := by
  have h2 := List.IsPrefix.filter (fun p => decide (p.2 = s))
    (List.take_prefix n (sort_desc l))
  rw [sort_desc_filter] at h2
  exact h2

theorem sort_desc_take_pairwise {α β : Type} [LinearOrder β] (l : List (α × β)) (n : Nat) :
    ((sort_desc l).take n).Pairwise (fun a b => b.2 ≤ a.2) :=
  (sort_desc_pairwise l).sublist (List.IsPrefix.sublist (List.take_prefix n _))

/-- C7: the recommender returns the empty list (not an error) when the
length/prefix-filtered pool is empty; otherwise at most
min(topN, filteredPoolSize) (word, score) pairs, sorted in descending score
order, with tied words keeping the relative order they had in the filtered
(scored) pool. -/
theorem recommend_guesses_contract (word_list : List Word) (len : Nat)
    (pre : Option Word) (n guess_count : Nat) (sb : Option (List Word)) :
    (word_list.filter (length_prefix_ok len pre) = [] →
        recommend_guesses word_list len pre n guess_count sb = []) ∧
      (recommend_guesses word_list len pre n guess_count sb).length ≤
        min n (word_list.filter (length_prefix_ok len pre)).length ∧
      List.Pairwise (fun a b => b.2 ≤ a.2)
        (recommend_guesses word_list len pre n guess_count sb) ∧
      ∀ s : ℚ,
        (recommend_guesses word_list len pre n guess_count sb).filter
            (fun p => decide (p.2 = s)) <+:
          ((word_list.filter (length_prefix_ok len pre)).map
              (fun w => (w, calculate_guess_score w
                (normalize_letter_frequencies
                  (calculate_letter_frequency (sb.getD word_list) len pre))
                guess_count))).filter (fun p => decide (p.2 = s)) := by
  by_cases hemp : (word_list.filter (length_prefix_ok len pre)).isEmpty
  · have hre : recommend_guesses word_list len pre n guess_count sb = [] := by
      unfold recommend_guesses
      simp [hemp]
    refine ⟨fun _ => hre, ?_, ?_, ?_⟩ <;> simp [hre]
  · have hre : recommend_guesses word_list len pre n guess_count sb =
        (sort_desc ((word_list.filter (length_prefix_ok len pre)).map
          (fun w => (w, calculate_guess_score w
            (normalize_letter_frequencies
              (calculate_letter_frequency (sb.getD word_list) len pre))
            guess_count)))).take n := by
      unfold recommend_guesses
      simp [hemp]
    refine ⟨fun hnil => absurd (show (word_list.filter (length_prefix_ok len pre)).isEmpty
      = true by rw [hnil]; rfl) hemp, ?_, ?_, ?_⟩
    · rw [hre, List.length_take, (sort_desc_perm _).length_eq, List.length_map]
    · rw [hre]
      exact sort_desc_take_pairwise _ n
    · intro s
      rw [hre]
      exact sort_desc_take_filter _ n s

/-- C7 witness: the contract instantiated on a singleton pool. -/
theorem recommend_guesses_contract_witness :
    (recommend_guesses [['a','b']] 2 none 9 1 none).length ≤
      min 9 ([['a','b']].filter (length_prefix_ok 2 none)).length :=
  (recommend_guesses_contract [['a','b']] 2 none 9 1 none).2.1

/-- C9: every filler word has the target length and contains at least one
variable letter; the returned words are the top-N by descending count of
distinct variable letters contained: the output has exactly
min(9, number of candidates) words, in descending score order, no omitted
candidate out-scores any returned word, and ties are stable (for each
score, the output is a prefix of the candidate list at that score). -/
theorem find_filler_words_contract (dictionary : List Word)
    (variable_letters : List Char) (word_length : Nat) :
    (find_filler_words dictionary variable_letters word_length).length ≤ 9 ∧
      (find_filler_words dictionary variable_letters word_length).length =
        min 9 (dictionary.filter (fun w => decide (w.length = word_length) &&
          variable_letters.any (fun l => decide (l ∈ w)))).length ∧
      (∀ w ∈ find_filler_words dictionary variable_letters word_length,
        w.length = word_length ∧ ∃ l ∈ variable_letters, l ∈ w) ∧
      List.Pairwise (fun w1 w2 => filler_score variable_letters w2 ≤
        filler_score variable_letters w1)
        (find_filler_words dictionary variable_letters word_length) ∧
      (∀ v ∈ dictionary.filter (fun w => decide (w.length = word_length) &&
          variable_letters.any (fun l => decide (l ∈ w))),
        v ∉ find_filler_words dictionary variable_letters word_length →
        ∀ w ∈ find_filler_words dictionary variable_letters word_length,
          filler_score variable_letters v ≤ filler_score variable_letters w) ∧
      ∀ k : Nat,
        (find_filler_words dictionary variable_letters word_length).filter
            (fun w => decide (filler_score variable_letters w = k)) <+:
          (dictionary.filter (fun w => decide (w.length = word_length) &&
              variable_letters.any (fun l => decide (l ∈ w)))).filter
            (fun w => decide (filler_score variable_letters w = k)) := by
  set C := dictionary.filter (fun w => decide (w.length = word_length) &&
    variable_letters.any (fun l => decide (l ∈ w))) with hC
  set scored := C.map (fun w => (w, filler_score variable_letters w)) with hscored
  have hre : find_filler_words dictionary variable_letters word_length =
      ((sort_desc scored).take 9).map (fun p => p.1) := rfl
  have hmemsc : ∀ p ∈ (sort_desc scored).take 9, p ∈ scored := fun p hp =>
    (sort_desc_perm scored).subset (List.take_subset 9 _ hp)
  refine ⟨?_, ?_, ?_, ?_, ?_, ?_⟩
  · rw [hre, List.length_map, List.length_take]
    exact min_le_left _ _
  · rw [hre, List.length_map, List.length_take, (sort_desc_perm scored).length_eq,
      hscored, List.length_map]
  · intro w hw
    rw [hre] at hw
    rcases List.mem_map.mp hw with ⟨p, hp, rfl⟩
    rcases List.mem_map.mp (hmemsc p hp) with ⟨w', hw', hw'eq⟩
    subst hw'eq
    rcases List.mem_filter.mp hw' with ⟨_, hcond⟩
    rw [Bool.and_eq_true] at hcond
    obtain ⟨hlen, hany⟩ := hcond
    refine ⟨of_decide_eq_true hlen, ?_⟩
    rcases List.any_eq_true.mp hany with ⟨l, hl, hlin⟩
    exact ⟨l, hl, of_decide_eq_true hlin⟩
  · rw [hre, List.pairwise_map]
    refine List.Pairwise.imp_of_mem ?_ (sort_desc_take_pairwise scored 9)
    intro a b ha hb hab
    rcases List.mem_map.mp (hmemsc a ha) with ⟨wa, _, rfl⟩
    rcases List.mem_map.mp (hmemsc b hb) with ⟨wb, _, rfl⟩
    exact hab
  · intro v hv hvnot w hw
    rw [hre] at hvnot hw
    rcases List.mem_map.mp hw with ⟨p, hp, rfl⟩
    have hvS : (v, filler_score variable_letters v) ∈ sort_desc scored :=
      (sort_desc_perm scored).mem_iff.mpr (List.mem_map.mpr ⟨v, hv, rfl⟩)
    have hvapp : (v, filler_score variable_letters v) ∈
        (sort_desc scored).take 9 ++ (sort_desc scored).drop 9 := by
      rw [List.take_append_drop]
      exact hvS
    have hvdrop : (v, filler_score variable_letters v) ∈ (sort_desc scored).drop 9 := by
      rcases List.mem_append.mp hvapp with h | h
      · exact absurd (List.mem_map.mpr ⟨_, h, rfl⟩) hvnot
      · exact h
    have hsplit := sort_desc_pairwise scored
    rw [← List.take_append_drop 9 (sort_desc scored), List.pairwise_append] at hsplit
    have hle := hsplit.2.2 p hp _ hvdrop
    rcases List.mem_map.mp (hmemsc p hp) with ⟨w', _, hw'eq⟩
    subst hw'eq
    exact hle
  · intro k
    rw [hre, List.filter_map]
    have hcong : ((sort_desc scored).take 9).filter
        ((fun w => decide (filler_score variable_letters w = k)) ∘ (fun p => p.1)) =
        ((sort_desc scored).take 9).filter (fun p => decide (p.2 = k)) := by
      apply List.filter_congr
      intro p hp
      rcases List.mem_map.mp (hmemsc p hp) with ⟨w', _, rfl⟩
      rfl
    rw [hcong]
    have hpre := sort_desc_take_filter scored 9 k
    have hscf : scored.filter (fun p => decide (p.2 = k)) =
        (C.filter (fun w => decide (filler_score variable_letters w = k))).map
          (fun w => (w, filler_score variable_letters w)) := by
      rw [hscored, List.filter_map]
      simp [Function.comp_def]
    rw [hscf] at hpre
    have hmapped := List.IsPrefix.map (fun p => p.1) hpre
    rw [List.map_map] at hmapped
    simpa [Function.comp_def] using hmapped

theorem le_foldl_max {γ : Type} [LinearOrder γ] (l : List γ) (a : γ) :
    a ≤ l.foldl max a := by
  induction l generalizing a with
  | nil => exact le_refl a
  | cons x xs ih => exact le_trans (le_max_left a x) (ih (max a x))

theorem mem_le_foldl_max {γ : Type} [LinearOrder γ] (l : List γ) (a : γ) :
    ∀ x ∈ l, x ≤ l.foldl max a := by
  induction l generalizing a with
  | nil => intro x hx; cases hx
  | cons y ys ih =>
    intro x hx
    rcases List.mem_cons.mp hx with rfl | hx'
    · exact le_trans (le_max_right a x) (le_foldl_max ys (max a x))
    · exact ih (max a y) x hx'

theorem foldl_max_mem {γ : Type} [LinearOrder γ] (l : List γ) (a : γ) :
    l.foldl max a = a ∨ l.foldl max a ∈ l := by
  induction l generalizing a with
  | nil => exact Or.inl rfl
  | cons x xs ih =>
    rw [List.foldl_cons]
    rcases ih (max a x) with h | h
    · rcases max_choice a x with hm | hm
      · exact Or.inl (h.trans hm)
      · exact Or.inr (List.mem_cons.mpr (Or.inl (h.trans hm)))
    · exact Or.inr (List.mem_cons.mpr (Or.inr h))

theorem foldl_min_le {γ : Type} [LinearOrder γ] (l : List γ) (a : γ) :
    l.foldl min a ≤ a := by
  induction l generalizing a with
  | nil => exact le_refl a
  | cons x xs ih => exact le_trans (ih (min a x)) (min_le_left a x)

theorem foldl_min_le_mem {γ : Type} [LinearOrder γ] (l : List γ) (a : γ) :
    ∀ x ∈ l, l.foldl min a ≤ x := by
  induction l generalizing a with
  | nil => intro x hx; cases hx
  | cons y ys ih =>
    intro x hx
    rcases List.mem_cons.mp hx with rfl | hx'
    · exact le_trans (foldl_min_le ys (min a x)) (min_le_right a x)
    · exact ih (min a y) x hx'

theorem foldl_min_mem {γ : Type} [LinearOrder γ] (l : List γ) (a : γ) :
    l.foldl min a = a ∨ l.foldl min a ∈ l := by
  induction l generalizing a with
  | nil => exact Or.inl rfl
  | cons x xs ih =>
    rw [List.foldl_cons]
    rcases ih (min a x) with h | h
    · rcases min_choice a x with hm | hm
      · exact Or.inl (h.trans hm)
      · exact Or.inr (List.mem_cons.mpr (Or.inl (h.trans hm)))
    · exact Or.inr (List.mem_cons.mpr (Or.inr h))

/-- C5: normalize maps the empty table to the empty table; a non-empty
table all of whose values are equal (minimum = maximum) maps every letter to
5; otherwise every output value lies in [0,10], every letter of maximal
frequency maps to 10 and every letter of minimal frequency maps to 0. -/
theorem normalize_letter_frequencies_contract (freqs : List (Char × ℚ)) :
    (freqs = [] → normalize_letter_frequencies freqs = []) ∧
      ((∀ p ∈ freqs, ∀ q ∈ freqs, p.2 = q.2) →
        ∀ r ∈ normalize_letter_frequencies freqs, r.2 = 5) ∧
      ((∃ p ∈ freqs, ∃ q ∈ freqs, p.2 ≠ q.2) →
        (∀ r ∈ normalize_letter_frequencies freqs, 0 ≤ r.2 ∧ r.2 ≤ 10) ∧
        (∀ p ∈ freqs, (∀ q ∈ freqs, q.2 ≤ p.2) →
          (p.1, (10 : ℚ)) ∈ normalize_letter_frequencies freqs) ∧
        (∀ p ∈ freqs, (∀ q ∈ freqs, p.2 ≤ q.2) →
          (p.1, (0 : ℚ)) ∈ normalize_letter_frequencies freqs)) := by
  match freqs with
  | [] =>
    refine ⟨fun _ => rfl, fun _ r hr => absurd hr (by simp [normalize_letter_frequencies]), ?_⟩
    rintro ⟨p, hp, -⟩
    cases hp
  | f :: fs =>
    set vals := (f :: fs).map (fun p => p.2) with hvals
    set M := vals.foldl max f.2 with hM
    set m := vals.foldl min f.2 with hm
    have hfv : f.2 ∈ vals := by simp [hvals]
    have hub : ∀ p ∈ f :: fs, p.2 ≤ M := fun p hp =>
      mem_le_foldl_max vals f.2 p.2 (List.mem_map_of_mem _ hp)
    have hlb : ∀ p ∈ f :: fs, m ≤ p.2 := fun p hp =>
      foldl_min_le_mem vals f.2 p.2 (List.mem_map_of_mem _ hp)
    have hMmem : ∃ p ∈ f :: fs, p.2 = M := by
      rcases foldl_max_mem vals f.2 with h | h
      · exact ⟨f, List.mem_cons_self f fs, (hM.trans h).symm⟩
      · rcases List.mem_map.mp h with ⟨p, hp, hpe⟩
        exact ⟨p, hp, hpe⟩
    have hmmem : ∃ p ∈ f :: fs, p.2 = m := by
      rcases foldl_min_mem vals f.2 with h | h
      · exact ⟨f, List.mem_cons_self f fs, (hm.trans h).symm⟩
      · rcases List.mem_map.mp h with ⟨p, hp, hpe⟩
        exact ⟨p, hp, hpe⟩
    have hmle : m ≤ M := le_trans (hlb f (List.mem_cons_self f fs))
      (hub f (List.mem_cons_self f fs))
    refine ⟨fun h => absurd h (List.cons_ne_nil f fs), ?_, ?_⟩
    · -- all values equal: the max equals the min, every output is 5
      intro hall r hr
      obtain ⟨pM, hpM, hpMe⟩ := hMmem
      obtain ⟨pm, hpm, hpme⟩ := hmmem
      have hMm : M = m := by rw [← hpMe, ← hpme]; exact hall pM hpM pm hpm
      rw [show normalize_letter_frequencies (f :: fs) =
        (if M = m then (f :: fs).map (fun p => (p.1, (5 : ℚ)))
          else (f :: fs).map
            (fun p => (p.1, (p.2 - m) / (M - m) * 10))) from rfl, if_pos hMm] at hr
      rcases List.mem_map.mp hr with ⟨p, hp, hpe⟩
      rw [← hpe]
    · -- two distinct values: rescaled outputs lie in [0,10] with max ↦ 10, min ↦ 0
      rintro ⟨p0, hp0, q0, hq0, hne⟩
      have hMm : ¬ M = m := by
        intro hMm
        apply hne
        have h1 := le_antisymm (hub p0 hp0) (hMm ▸ hlb p0 hp0)
        have h2 := le_antisymm (hub q0 hq0) (hMm ▸ hlb q0 hq0)
        rw [h1, h2]
      have hlt : m < M := lt_of_le_of_ne hmle (fun h => hMm h.symm)
      have hpos : 0 < M - m := sub_pos.mpr hlt
      have hnf : normalize_letter_frequencies (f :: fs) =
          (f :: fs).map (fun p => (p.1, (p.2 - m) / (M - m) * 10)) := by
        rw [show normalize_letter_frequencies (f :: fs) =
          (if M = m then (f :: fs).map (fun p => (p.1, (5 : ℚ)))
            else (f :: fs).map
              (fun p => (p.1, (p.2 - m) / (M - m) * 10))) from rfl, if_neg hMm]
      refine ⟨?_, ?_, ?_⟩
      · intro r hr
        rw [hnf] at hr
        rcases List.mem_map.mp hr with ⟨p, hp, hpe⟩
        rw [← hpe]
        constructor
        · have h0 : 0 ≤ p.2 - m := sub_nonneg.mpr (hlb p hp)
          positivity
        · have h1 : (p.2 - m) / (M - m) ≤ 1 := by
            rw [div_le_one hpos]
            exact sub_le_sub_right (hub p hp) m
          calc (p.2 - m) / (M - m) * 10 ≤ 1 * 10 := by
                exact mul_le_mul_of_nonneg_right h1 (by norm_num)
            _ = 10 := by norm_num
      · intro p hp hmax
        rw [hnf]
        have hpM : p.2 = M := by
          obtain ⟨pM, hpM, hpMe⟩ := hMmem
          exact le_antisymm (hub p hp) (hpMe ▸ hmax pM hpM)
        refine List.mem_map.mpr ⟨p, hp, ?_⟩
        rw [hpM, div_self (ne_of_gt hpos)]
        norm_num
      · intro p hp hmin
        rw [hnf]
        have hpm : p.2 = m := by
          obtain ⟨pm, hpm, hpme⟩ := hmmem
          exact le_antisymm (hpme ▸ hmin pm hpm) (hlb p hp)
        refine List.mem_map.mpr ⟨p, hp, ?_⟩
        rw [hpm, sub_self, zero_div, zero_mul]

/-- C5 witness: on the table a↦20, b↦10, c↦5 the maximal letter a maps
to 10. -/
theorem normalize_letter_frequencies_contract_witness :
    (('a' : Char), (10 : ℚ)) ∈
      normalize_letter_frequencies [('a', 20), ('b', 10), ('c', 5)] :=
  ((normalize_letter_frequencies_contract [('a', 20), ('b', 10), ('c', 5)]).2.2
      ⟨('a', 20), by simp, ('b', 10), by simp, by norm_num⟩).2.1 ('a', 20)
    (by simp) (by intro q hq; fin_cases hq <;> norm_num)

theorem mem_of_lookup_eq_some {β : Type} {l : List (Char × β)} {c : Char} {v : β}
    (h : List.lookup c l = some v) : (c, v) ∈ l := by
  induction l with
  | nil => simp [List.lookup] at h
  | cons p ps ih =>
    rcases p with ⟨k, b⟩
    by_cases hk : (c == k) = true
    · have hkc : k = c := by
        have := of_decide_eq_true hk
        exact this.symm
      rw [List.lookup, hk] at h
      simp only [Option.some.injEq] at h
      subst hkc
      subst h
      exact List.mem_cons_self _ _
    · rw [Bool.not_eq_true] at hk
      rw [List.lookup, hk] at h
      exact List.mem_cons_of_mem _ (ih h)

theorem get_score_nonneg (letter_scores : List (Char × ℚ))
    (hnn : ∀ p ∈ letter_scores, 0 ≤ p.2) (c : Char) :
    0 ≤ get_score letter_scores c := by
  unfold get_score
  cases hl : List.lookup c letter_scores with
  | none => simp
  | some v =>
    simp only [Option.getD_some]
    exact hnn (c, v) (mem_of_lookup_eq_some hl)

theorem dedup_toFinset_eq (l : List Char) : l.dedup.toFinset = l.toFinset := by
  ext a
  simp

theorem sum_over_word (word : Word) (g : Char → ℚ) :
    (word.map g).sum = ∑ c ∈ word.toFinset, word.count c • g c :=
  Finset.sum_list_map_count word g

theorem sum_over_dedup {γ : Type} [AddCommMonoid γ] (word : Word) (g : Char → γ) :
    (word.dedup.map g).sum = ∑ c ∈ word.toFinset, g c := by
  rw [← List.sum_toFinset g word.nodup_dedup, dedup_toFinset_eq]

/-- C6 (amended): with a nonnegative letter-score table, the guess score at
guess index 3 is at least the score at index 2, and strictly greater exactly
when some letter occurring at least twice in the word has a strictly
positive score (a repeated letter scoring 0 adds nothing). -/
theorem calculate_guess_score_repeat (word : Word) (letter_scores : List (Char × ℚ))
    (hnn : ∀ p ∈ letter_scores, 0 ≤ p.2) :
    calculate_guess_score word letter_scores 2 ≤
        calculate_guess_score word letter_scores 3 ∧
      ((∃ c, 2 ≤ word.count c ∧ 0 < get_score letter_scores c) ↔
        calculate_guess_score word letter_scores 2 <
          calculate_guess_score word letter_scores 3) := by
  have h2 : calculate_guess_score word letter_scores 2 =
      ∑ c ∈ word.toFinset, get_score letter_scores c := by
    rw [show calculate_guess_score word letter_scores 2 =
      (word.dedup.map (fun c => get_score letter_scores c)).sum from rfl]
    exact sum_over_dedup word _
  have h3 : calculate_guess_score word letter_scores 3 =
      ∑ c ∈ word.toFinset, word.count c • get_score letter_scores c := by
    rw [show calculate_guess_score word letter_scores 3 =
      (word.map (fun c => get_score letter_scores c)).sum from rfl]
    exact sum_over_word word _
  have hterm : ∀ c ∈ word.toFinset,
      get_score letter_scores c ≤ word.count c • get_score letter_scores c := by
    intro c hc
    have hcnt : 1 ≤ word.count c := by
      have := List.count_pos_iff.mpr (List.mem_toFinset.mp hc)
      omega
    have hcast : (1 : ℚ) ≤ (word.count c : ℚ) := by exact_mod_cast hcnt
    rw [nsmul_eq_mul]
    nlinarith [get_score_nonneg letter_scores hnn c]
  refine ⟨?_, ?_, ?_⟩
  · rw [h2, h3]
    exact Finset.sum_le_sum hterm
  · rintro ⟨c0, hc0cnt, hc0pos⟩
    rw [h2, h3]
    refine Finset.sum_lt_sum hterm ⟨c0, ?_, ?_⟩
    · exact List.mem_toFinset.mpr (List.count_pos_iff.mp (by omega))
    · have hcast : (2 : ℚ) ≤ (word.count c0 : ℚ) := by exact_mod_cast hc0cnt
      have h2g : 2 * get_score letter_scores c0 ≤
          (word.count c0 : ℚ) * get_score letter_scores c0 :=
        mul_le_mul_of_nonneg_right hcast (le_of_lt hc0pos)
      rw [nsmul_eq_mul]
      linarith
  · intro hlt
    by_contra hno
    push_neg at hno
    apply absurd hlt
    rw [h2, h3]
    have heq : ∀ c ∈ word.toFinset,
        word.count c • get_score letter_scores c = get_score letter_scores c := by
      intro c hc
      have hcnt : 1 ≤ word.count c := by
        have := List.count_pos_iff.mpr (List.mem_toFinset.mp hc)
        omega
      rcases Nat.lt_or_ge (word.count c) 2 with hlt2 | hge2
      · have hone : word.count c = 1 := by omega
        rw [hone, one_smul]
      · have hz : get_score letter_scores c = 0 :=
          le_antisymm (hno c hge2) (get_score_nonneg letter_scores hnn c)
        rw [hz, smul_zero]
    rw [Finset.sum_congr rfl heq]
    exact lt_irrefl _

/-- C6 (counterexample): the word "aa" has a repeated letter, yet with the
empty letter-score table the score at guess index 3 is not strictly greater
than at index 2 (both are 0). -/
theorem calculate_guess_score_counterexample :
    ¬ (calculate_guess_score ['a', 'a'] [] 2 < calculate_guess_score ['a', 'a'] [] 3) ∧
      ¬ (['a', 'a'] : Word).Nodup := by
  constructor
  · have hd : (['a', 'a'] : Word).dedup = ['a'] := by decide
    have e2 : calculate_guess_score ['a', 'a'] [] 2 = 0 := by
      show ((['a', 'a'] : Word).dedup.map (fun c => get_score [] c)).sum = 0
      rw [hd]
      simp [get_score]
    have e3 : calculate_guess_score ['a', 'a'] [] 3 = 0 := by
      show (((['a', 'a'] : Word)).map (fun c => get_score [] c)).sum = 0
      simp [get_score]
    rw [e2, e3]
    exact lt_irrefl 0
  · decide

/-- C6 witness: with table a↦5, b↦3 the word "aab" scores strictly higher
at guess index 3 than at index 2. -/
theorem calculate_guess_score_repeat_witness :
    calculate_guess_score ['a', 'a', 'b'] [('a', 5), ('b', 3)] 2 <
      calculate_guess_score ['a', 'a', 'b'] [('a', 5), ('b', 3)] 3 :=
  (calculate_guess_score_repeat ['a', 'a', 'b'] [('a', 5), ('b', 3)]
      (by intro p hp; fin_cases hp <;> norm_num)).2.mp
    ⟨'a', by decide, by norm_num [get_score, List.lookup]⟩

/-- C8: if the length/prefix-filtered basis is empty, or contains no letters
after prefix stripping, the frequency analyzer returns the empty table (no
division by zero); otherwise the returned per-letter percentages sum to
exactly 100 in exact rational arithmetic. -/
theorem calculate_letter_frequency_sum (word_list : List Word) (len : Nat)
    (pre : Option Word) :
    (word_list.filter (length_prefix_ok len pre) = [] →
        calculate_letter_frequency word_list len pre = []) ∧
      (stripped_letters word_list len pre = [] →
        calculate_letter_frequency word_list len pre = []) ∧
      (stripped_letters word_list len pre ≠ [] →
        ((calculate_letter_frequency word_list len pre).map (fun p => p.2)).sum
          = 100) := by
  refine ⟨?_, ?_, ?_⟩
  · intro h
    unfold calculate_letter_frequency
    simp [h]
  · intro h
    unfold calculate_letter_frequency
    by_cases hemp : (word_list.filter (length_prefix_ok len pre)).isEmpty
    · simp [hemp]
    · simp only [hemp, Bool.false_eq_true, if_false]
      rw [h]
      simp
  · intro hne
    have hlen : (stripped_letters word_list len pre).length ≠ 0 :=
      fun h => hne (List.length_eq_zero.mp h)
    have hT : ((stripped_letters word_list len pre).dedup.map
        (fun c => (stripped_letters word_list len pre).count c)).sum =
        (stripped_letters word_list len pre).length := by
      rw [sum_over_dedup]
      exact List.sum_toFinset_count_eq_length _
    have hfil : ¬ (word_list.filter (length_prefix_ok len pre)).isEmpty = true := by
      intro hemp
      apply hne
      unfold stripped_letters
      rcases pre with _ | p
      · simp only [List.isEmpty_iff.mp hemp, List.flatten_nil]
      · simp only [List.isEmpty_iff.mp hemp, List.map_nil, List.flatten_nil]
    have hres : calculate_letter_frequency word_list len pre =
        sort_desc ((stripped_letters word_list len pre).dedup.map
          (fun c => (c, (((stripped_letters word_list len pre).count c : ℚ) /
            ((((stripped_letters word_list len pre).dedup.map
              (fun c => (stripped_letters word_list len pre).count c)).sum : ℕ) : ℚ))
            * 100))) := by
      unfold calculate_letter_frequency
      simp only [hfil, Bool.false_eq_true, if_false]
      rw [if_neg (by rw [hT]; exact hlen)]
    rw [hres]
    have hps := ((sort_desc_perm ((stripped_letters word_list len pre).dedup.map
      (fun c => (c, (((stripped_letters word_list len pre).count c : ℚ) /
        ((((stripped_letters word_list len pre).dedup.map
          (fun c => (stripped_letters word_list len pre).count c)).sum : ℕ) : ℚ))
        * 100)))).map (fun p => p.2)).sum_eq
    rw [hps, List.map_map]
    rw [hT, sum_over_dedup]
    simp only [Function.comp_def]
    have hstep : ∀ c ∈ (stripped_letters word_list len pre).toFinset,
        (((stripped_letters word_list len pre).count c : ℚ) /
          (((stripped_letters word_list len pre).length : ℕ) : ℚ)) * 100 =
        ((stripped_letters word_list len pre).count c : ℚ) *
          (100 / ((stripped_letters word_list len pre).length : ℚ)) := by
      intro c _
      ring
    rw [Finset.sum_congr rfl hstep, ← Finset.sum_mul]
    rw [show (∑ c ∈ (stripped_letters word_list len pre).toFinset,
        ((stripped_letters word_list len pre).count c : ℚ)) =
        ((∑ c ∈ (stripped_letters word_list len pre).toFinset,
          (stripped_letters word_list len pre).count c : ℕ) : ℚ) by push_cast; ring]
    rw [List.sum_toFinset_count_eq_length]
    have hcast : ((stripped_letters word_list len pre).length : ℚ) ≠ 0 :=
      Nat.cast_ne_zero.mpr hlen
    field_simp

/-- C8 witness: on the basis ["ab"] with length 2 and no prefix the
percentages sum to 100. -/
theorem calculate_letter_frequency_sum_witness :
    ((calculate_letter_frequency [['a','b']] 2 none).map (fun p => p.2)).sum = 100 :=
  (calculate_letter_frequency_sum [['a','b']] 2 none).2.2 (by decide)

/-- C3 (counterexample): called directly with the feedback symbol 'x', which
is outside {g,y,b}, the candidate filter raises no validation error: the
malformed symbols impose no constraint and the word is retained (with any
valid symbol for ('a',·) on "aa", 'y' and 'b' would both reject it). -/
theorem filter_invalid_symbol_ignored :
    filter_possible_words [['a', 'a']] [('a', 'x'), ('a', 'x')] = [['a', 'a']] := by
  decide

/-- The history loop rejects the first malformed entry it reaches: after
any run of valid entries, a length-mismatched entry fails with the mismatch
error, and an entry with valid lengths but a feedback character outside
{g,y,b} fails with the invalid-characters error, from any candidate list. -/
theorem apply_history_rejects (word_length : Nat) (front : List HistoryEntry)
    (entry : HistoryEntry) (rest : List HistoryEntry) :
    ∀ possible_words : List Word, (∀ e ∈ front, entry_valid word_length e) →
    ((entry.guess.length ≠ word_length ∨ entry.feedback.length ≠ word_length) →
      apply_history word_length possible_words (front ++ entry :: rest) =
        Except.error RequestError.lengthMismatch) ∧
    ((entry.guess.length = word_length ∧ entry.feedback.length = word_length ∧
        ¬ ((entry.feedback.map Char.toLower).all
          (fun c => decide (c = 'g' ∨ c = 'y' ∨ c = 'b')) = true)) →
      apply_history word_length possible_words (front ++ entry :: rest) =
        Except.error RequestError.invalidFeedbackChars) := by
  induction front with
  | nil =>
    intro possible_words _
    constructor
    · intro hmm
      rw [List.nil_append]
      unfold apply_history
      rw [if_pos]
      simpa [List.length_map] using hmm
    · rintro ⟨hg, hf, hbad⟩
      rw [List.nil_append]
      unfold apply_history
      rw [if_neg (by simp [List.length_map, hg, hf]), if_neg hbad]
  | cons f fs ih =>
    intro possible_words hvalid
    have hf := hvalid f (List.mem_cons_self f fs)
    have hfs : ∀ e ∈ fs, entry_valid word_length e :=
      fun e he => hvalid e (List.mem_cons_of_mem f he)
    constructor
    · intro hmm
      rw [List.cons_append]
      unfold apply_history
      rw [if_neg (by simp [List.length_map, hf.1, hf.2.1]), if_pos hf.2.2]
      exact (ih _ hfs).1 hmm
    · intro hbad
      rw [List.cons_append]
      unfold apply_history
      rw [if_neg (by simp [List.length_map, hf.1, hf.2.1]), if_pos hf.2.2]
      exact (ih _ hfs).2 hbad

/-- C3 (amended): the filter itself performs no validation — a symbol
outside {g,y,b} is silently ignored — but `calculate_next_move` validates
every history entry before filtering with it: wherever a malformed entry
sits in the history, after any run of valid entries, a guess/feedback
length mismatch or a feedback character outside {g,y,b} fails the request
with the corresponding explicit validation error. -/
theorem calculate_next_move_validates (dictionary : List Word) (word_length : Nat)
    (pre : Option Word) (front : List HistoryEntry) (entry : HistoryEntry)
    (rest : List HistoryEntry) (hwl : 1 ≤ word_length)
    (hfront : ∀ e ∈ front, entry_valid word_length e) :
    ((entry.guess.length ≠ word_length ∨ entry.feedback.length ≠ word_length) →
      calculate_next_move dictionary word_length pre (front ++ entry :: rest) =
        Except.error RequestError.lengthMismatch) ∧
    ((entry.guess.length = word_length ∧ entry.feedback.length = word_length ∧
        ¬ ((entry.feedback.map Char.toLower).all
          (fun c => decide (c = 'g' ∨ c = 'y' ∨ c = 'b')) = true)) →
      calculate_next_move dictionary word_length pre (front ++ entry :: rest) =
        Except.error RequestError.invalidFeedbackChars) := by
  have hwl' : ¬ word_length < 1 := by omega
  have h := apply_history_rejects word_length front entry rest
    (dictionary.filter (length_prefix_ok word_length pre)) hfront
  constructor
  · intro hmm
    simp only [calculate_next_move]
    rw [if_neg hwl', h.1 hmm]
  · intro hbad
    simp only [calculate_next_move]
    rw [if_neg hwl', h.2 hbad]

/-- C3 witness: a history whose second entry (after a valid first entry)
contains the invalid feedback character 'x' makes the request fail with the
invalid-characters error. -/
theorem calculate_next_move_validates_witness :
    calculate_next_move [] 1 none [⟨['a'], ['g']⟩, ⟨['a'], ['x']⟩] =
      Except.error RequestError.invalidFeedbackChars :=
  (calculate_next_move_validates [] 1 none [⟨['a'], ['g']⟩] ⟨['a'], ['x']⟩ []
      (by decide)
      (by
        intro e he
        rw [List.mem_singleton] at he
        subst he
        exact ⟨rfl, rfl, by decide⟩)).2 ⟨rfl, rfl, by decide⟩

/-- The concatenation of the variable-position letter sets is empty exactly
when there are no variable positions (each retained position carries at
least two letters). -/
theorem variable_positions_flatten_eq_nil (word_list : List Word) :
    ((((find_variable_letter_positions word_list).map (fun p => p.2)).flatten) = []) ↔
      find_variable_letter_positions word_list = [] := by
  constructor
  · intro h
    by_contra hne
    rcases List.exists_mem_of_ne_nil _ hne with ⟨p, hp⟩
    have hplen : 1 < p.2.length := by
      unfold find_variable_letter_positions at hp
      match word_list, hp with
      | w :: ws, hp =>
        have := (List.mem_filter.mp hp).2
        exact of_decide_eq_true this
    have hpnil : p.2 = [] :=
      List.flatten_eq_nil_iff.mp h p.2 (List.mem_map_of_mem _ hp)
    rw [hpnil] at hplen
    simp at hplen
  · intro h
    rw [h]
    rfl

/-- C10: for a successfully handled request, `fillerSuggestions` is empty
whenever at most 10 candidates remain or no position varies across them;
filler words are computed — from the full dictionary and the variable
letters of the response — only when more than 10 candidates remain and at
least one variable position exists. -/
theorem calculate_next_move_filler (dictionary : List Word) (word_length : Nat)
    (pre : Option Word) (history : List HistoryEntry) (resp : NextMoveResponse)
    (hok : calculate_next_move dictionary word_length pre history = Except.ok resp) :
    ((resp.remainingCount ≤ 10 ∨ resp.variablePositions = []) →
      resp.fillerSuggestions = []) ∧
    ((10 < resp.remainingCount ∧ resp.variablePositions ≠ []) →
      resp.fillerSuggestions = find_filler_words dictionary
        (((resp.variablePositions.map (fun p => p.2)).flatten).dedup) word_length) := by
  simp only [calculate_next_move] at hok
  by_cases hwl : word_length < 1
  · rw [if_pos hwl] at hok
    cases hok
  · rw [if_neg hwl] at hok
    cases happly : apply_history word_length
        (dictionary.filter (length_prefix_ok word_length pre)) history with
    | error e =>
      rw [happly] at hok
      cases hok
    | ok possible_words =>
      rw [happly] at hok
      injection hok with hok
      subst hok
      constructor
      · intro hcond
        have hcond' : possible_words.length ≤ 10 ∨
            find_variable_letter_positions possible_words = [] := hcond
        show (if ¬ ((((find_variable_letter_positions possible_words).map
              (fun p => p.2)).flatten).dedup).isEmpty ∧ 10 < possible_words.length
            then find_filler_words dictionary
              ((((find_variable_letter_positions possible_words).map
                (fun p => p.2)).flatten).dedup) word_length
            else []) = []
        rw [if_neg]
        rcases hcond' with hle | hnil
        · intro hand
          exact absurd hle (by omega)
        · intro hand
          apply hand.1
          rw [List.isEmpty_iff, List.dedup_eq_nil,
            variable_positions_flatten_eq_nil]
          exact hnil
      · rintro ⟨hgt, hne⟩
        have hgt' : 10 < possible_words.length := hgt
        have hne' : find_variable_letter_positions possible_words ≠ [] := hne
        show (if ¬ ((((find_variable_letter_positions possible_words).map
              (fun p => p.2)).flatten).dedup).isEmpty ∧ 10 < possible_words.length
            then find_filler_words dictionary
              ((((find_variable_letter_positions possible_words).map
                (fun p => p.2)).flatten).dedup) word_length
            else []) = find_filler_words dictionary
              ((((find_variable_letter_positions possible_words).map
                (fun p => p.2)).flatten).dedup) word_length
        rw [if_pos]
        refine ⟨?_, hgt'⟩
        rw [List.isEmpty_iff, List.dedup_eq_nil, variable_positions_flatten_eq_nil]
        exact hne'

/-- C10 witness: the trivial request (empty dictionary, no history) succeeds
with no filler suggestions. -/
theorem calculate_next_move_filler_witness :
    (⟨[], [], 0, [], [], 1⟩ : NextMoveResponse).fillerSuggestions = [] :=
  (calculate_next_move_filler [] 1 none [] ⟨[], [], 0, [], [], 1⟩ rfl).1
    (Or.inl (by decide))

/-- C9 witness: the filler contract instantiated on a two-word dictionary. -/
theorem find_filler_words_contract_witness :
    (find_filler_words [['a','b']] ['a'] 2).length ≤ 9 :=
  (find_filler_words_contract [['a','b']] ['a'] 2).1
